import Mathlib

/-!
Verification of the JCR path-mapping and reference-rewriting engine of
helix-importer-ui (src/js/shared/jcr.js).

JavaScript strings are embedded as lists of characters (`Str`); fallible
code (JS exceptions) is embedded with `Except String`; the browser URL
constructor and the network fetch are external collaborators, modelled by
a small structural URL record plus parser and by an outcome oracle.
All definitions are executable.
-/

/-- A JavaScript string, embedded as its list of characters. -/
abbrev Str := List Char

namespace Jcr

/-- JS `s.startsWith(p)` on embedded strings. -/
def strStartsWith : Str → Str → Bool
  | _, [] => true
  | [], _ :: _ => false
  | c :: s, p :: ps => c == p && strStartsWith s ps

/-- JS `s.split(sep)` for a single-character separator: always returns a
nonempty list of separator-free pieces; `''.split(sep) = ['']`. -/
def splitOn (sep : Char) : Str → List Str
  | [] => [[]]
  | c :: rest =>
    if c = sep then [] :: splitOn sep rest
    else
      match splitOn sep rest with
      | h :: t => (c :: h) :: t
      | [] => [[c]]

/-- JS `arr.join(sep)` for a single-character separator. -/
def joinSep (sep : Char) : List Str → Str
  | [] => []
  | [x] => x
  | x :: y :: t => x ++ sep :: joinSep sep (y :: t)

/-- JS `arr.splice(i, 1, x)`: replace the element at index `i` by `x`. -/
def spliceAt (l : List Str) (i : Nat) (x : Str) : List Str :=
  l.take i ++ [x] ++ l.drop (i + 1)

/-- JS `s.replace(pat, '')` for a string pattern: removes the first
occurrence of `pat`; with an empty pattern the string is unchanged. -/
def replaceFirst (pat : Str) : Str → Str
  | [] => []
  | c :: rest =>
    if strStartsWith (c :: rest) pat then (c :: rest).drop pat.length
    else c :: replaceFirst pat rest

/-- JS `s.substring(0, s.lastIndexOf(sep))`: everything strictly before the
last occurrence of `sep`, or the empty string when `sep` does not occur
(JS `substring(0, -1)` clamps to the empty string). -/
def beforeLast (sep : Char) (s : Str) : Str :=
  let afterLen := (s.reverse.takeWhile (fun c => !(c == sep))).length
  if afterLen = s.length then [] else s.take (s.length - afterLen - 1)

/-- The character-code → replacement table of `getSiteName`
(`labelCharMapping` in the source), transcribed entry for entry. -/
def labelCharMapping : List Str :=
  (["_", "_", "_", "_", "_", "_", "_", "_", "_", "_", "_", "_", "_", "_", "_", "_",
    "_", "_", "_", "_", "_", "_", "_", "_", "_", "_", "_", "_", "_", "_", "_", "_",
    "_", "_", "_", "_", "_", "_", "_", "_", "_", "_", "_", "_", "_", "-", "_", "_",
    "0", "1", "2", "3", "4", "5", "6", "7", "8", "9", "_", "_", "_", "_", "_", "_",
    "_", "a", "b", "c", "d", "e", "f", "g", "h", "i", "j", "k", "l", "m", "n", "o",
    "p", "q", "r", "s", "t", "u", "v", "w", "x", "y", "z", "_", "_", "_", "_", "_",
    "_", "a", "b", "c", "d", "e", "f", "g", "h", "i", "j", "k", "l", "m", "n", "o",
    "p", "q", "r", "s", "t", "u", "v", "w", "x", "y", "z", "_", "_", "_", "_", "_",
    "_", "f", "_", "_", "_", "fi", "fi", "_", "_", "_", "_", "_", "_", "_", "_", "_",
    "_", "_", "_", "_", "_", "_", "_", "_", "_", "_", "_", "_", "y", "_", "_", "_",
    "_", "i", "c", "p", "o", "v", "_", "s", "_", "_", "_", "_", "_", "_", "_", "_",
    "_", "_", "_", "_", "_", "_", "_", "_", "_", "_", "_", "_", "_", "_", "_", "_",
    "a", "a", "a", "a", "ae", "a", "ae", "c", "e", "e", "e", "e", "i", "i", "i", "i",
    "d", "n", "o", "o", "o", "o", "oe", "x", "o", "u", "u", "u", "ue", "y", "b", "ss",
    "a", "a", "a", "a", "ae", "a", "ae", "c", "e", "e", "e", "e", "i", "i", "i", "i",
    "o", "n", "o", "o", "o", "o", "oe", "_", "o", "u", "u", "u", "ue", "y", "b", "y"] :
      List String).map String.data

/-- The placeholder emitted for unmapped characters
(`defaultReplacementCharacter` in the source). -/
def defaultReplacementCharacter : Str := ['_']

/-- The loop body of `getSiteName`: scans the input, appending one
replacement entry per emitting character to the accumulator `name`,
with the source's placeholder run-compression (`prevEscaped`), the
16-entry escape budget and the 64-entry hard cap. -/
def siteNameLoop (name : List Str) (prevEscaped : Bool) : Str → List Str
  | [] => name
  | c :: rest =>
    if 64 ≤ name.length then name
    else
      let repl := labelCharMapping.getD c.toNat defaultReplacementCharacter
      if repl = defaultReplacementCharacter then
        siteNameLoop
          (if !prevEscaped && name.length < 16 then name ++ [defaultReplacementCharacter]
           else name)
          true rest
      else
        siteNameLoop (name ++ [repl]) false rest

/-- Embedding of `getSiteName` from the source: create a valid JCR node-name label out of
an arbitrary string (the join of the scanned replacement entries). -/
def getSiteName (siteNameConfig : Str) : Str :=
  (siteNameLoop [] false siteNameConfig).flatten

/-- The node-name alphabet stated by the spec for sanitized site names:
lowercase ASCII letters, digits, underscore and hyphen. -/
def allowedChar (c : Char) : Bool :=
  ('a' ≤ c && c ≤ 'z') || ('0' ≤ c && c ≤ '9') || c == '_' || c == '-'

/-- Embedding of `getJcrPagePath` from the source: paths already under `/content/` get
their second segment replaced by the site name, all others are prefixed
with `/content/{siteName}`. -/
def getJcrPagePath (path : Str) (siteNameConfig : Str) : Str :=
  let siteName := getSiteName siteNameConfig
  if strStartsWith path ("/content/".data) then
    joinSep '/' (spliceAt (splitOn '/' path) 2 siteName)
  else
    "/content/".data ++ siteName ++ path

/-- Structural model of a browser URL object, as consumed by the source:
`origin`, `pathname` and the ordered `searchParams` are the only parts the
importer reads. -/
structure JUrl where
  scheme : Str
  host : Str
  pathname : Str
  params : List (Str × Str)
deriving DecidableEq, Repr

/-- The `url.origin` accessor: scheme, separator and host. -/
def JUrl.origin (u : JUrl) : Str :=
  u.scheme ++ "://".data ++ u.host

/-- The query-string parser behind `URLSearchParams`: `&`-separated
segments, key before the first `=`, empty segments skipped. -/
def parseQuery (q : Str) : List (Str × Str) :=
  (splitOn '&' q).filterMap (fun p =>
    if p = [] then none
    else
      let k := p.takeWhile (fun c => !(c == '='))
      match p.drop k.length with
      | '=' :: v => some (k, v)
      | _ => some (k, []))

/-- The `searchParams.get(key)` accessor: the value of the first pair with this key
(empty string when absent, which cannot happen for keys obtained from the
pair list itself). -/
def paramsGet (ps : List (Str × Str)) (k : Str) : Str :=
  ((ps.find? (fun kv => kv.1 == k)).map Prod.snd).getD []

/-- Model of the browser `new URL(string)` constructor restricted to the
`scheme://host[/path][?query]` shapes the importer builds: returns `none`
(the constructor throws) when the separator, scheme or host is missing.
Percent-decoding and path normalization are not modelled; the inputs of
this development contain neither. -/
def urlParse (s : Str) : Option JUrl :=
  let scheme := s.takeWhile (fun c => !(c == ':'))
  if scheme = [] then none
  else
    match s.drop scheme.length with
    | ':' :: '/' :: '/' :: r =>
      let host := r.takeWhile (fun c => !(c == '/') && !(c == '?'))
      if host = [] then none
      else
        match r.drop host.length with
        | [] => some ⟨scheme, host, ['/'], []⟩
        | '?' :: q => some ⟨scheme, host, ['/'], parseQuery q⟩
        | rest =>
          let pathname := rest.takeWhile (fun c => !(c == '?'))
          match rest.drop pathname.length with
          | '?' :: q => some ⟨scheme, host, pathname, parseQuery q⟩
          | _ => some ⟨scheme, host, pathname, []⟩
    | _ => none

/-- Embedding of `getJcrAssetPath` from the source: recover an extension from the URL
pathname (`split('.').pop()` over the whole pathname), strip its first
occurrence, then either substitute the site name into an existing
`/content/dam/` path or build `/content/dam/{siteName}{path}{suffix}{ext}`
with the query parameters folded into the node name. -/
def getJcrAssetPath (assetUrl : JUrl) (siteNameConfig : Str) : Str :=
  let siteName := getSiteName siteNameConfig
  let extension :=
    if assetUrl.pathname.contains '.' then
      '.' :: (splitOn '.' assetUrl.pathname).getLastD []
    else []
  let path := replaceFirst extension assetUrl.pathname
  if strStartsWith path ("/content/dam/".data) then
    joinSep '/' (spliceAt (splitOn '/' path) 3 siteName) ++ extension
  else
    let suffix :=
      (assetUrl.params.map (fun kv => '_' :: (kv.1 ++ paramsGet assetUrl.params kv.1))).flatten
    "/content/dam/".data ++ siteName ++ path ++ suffix ++ extension

/-- The substring after the final `.` of a string (the whole string when it
contains no `.`): the index-free reading of "substring after the final dot"
used by the amended C6 claim. -/
def afterLastDot : Str → Str
  | [] => []
  | c :: r =>
    if ('.' : Char) ∈ r then afterLastDot r
    else if c = '.' then r
    else c :: r

/-- The asset path mapper as worded by the amended C6 claim: the extension
is the dot plus the substring after the final `.` occurring anywhere in
the URL path (empty when the path has no dot), the base is the path with
the first occurrence of that extension string removed, and the branching,
site substitution and query-parameter suffix are as in `getJcrAssetPath`.
Written to be compared with the source-derived `getJcrAssetPath`. -/
def assetPathSpec (assetUrl : JUrl) (siteNameConfig : Str) : Str :=
  let siteName := getSiteName siteNameConfig
  let extension :=
    if assetUrl.pathname.contains '.' then '.' :: afterLastDot assetUrl.pathname
    else []
  let path := replaceFirst extension assetUrl.pathname
  if strStartsWith path ("/content/dam/".data) then
    joinSep '/' (spliceAt (splitOn '/' path) 3 siteName) ++ extension
  else
    let suffix :=
      (assetUrl.params.map (fun kv => '_' :: (kv.1 ++ paramsGet assetUrl.params kv.1))).flatten
    "/content/dam/".data ++ siteName ++ path ++ suffix ++ extension

/-- Embedding of `getMimeTypeFromExtension` from the source: the fixed extension →
mime-type table (`undefined`, i.e. `none`, for unknown extensions). -/
def getMimeTypeFromExtension (extension : Str) : Option Str :=
  if extension = "html".data then some ("text/html".data)
  else if extension = "css".data then some ("text/css".data)
  else if extension = "js".data then some ("application/javascript".data)
  else if extension = "png".data then some ("image/png".data)
  else if extension = "jpg".data then some ("image/jpeg".data)
  else if extension = "gif".data then some ("image/gif".data)
  else none

/-- The classification record built by `getAsset` (a `ResolvedAsset`):
`jcrPath` and `url` are `undefined` (`none`) in the non-bundled branches,
`blob` and `mimeType` stay `undefined` until `fetchAssetData` runs. -/
structure Asset where
  fileReference : Str
  processedFileRef : Str
  jcrPath : Option Str
  url : Option JUrl
  add : Bool
  blob : Option Str
  mimeType : Option Str
deriving DecidableEq, Repr

/-- Embedding of `getAsset` from the source: `null` for an empty reference, then the
case dispatch on `http`, `/content/dam/`, `/`, `./` prefixes; a thrown
`TypeError` from the URL constructor is an `Except.error`. -/
def getAsset (fileReference pageUrl siteName : Str) : Except String (Option Asset) :=
  if fileReference = [] then .ok none
  else
    match urlParse pageUrl with
    | none => .error ("TypeError: Invalid URL")
    | some pu =>
      let host := pu.origin
      let pagePath := pu.pathname
      if strStartsWith fileReference ("http".data) then
        match urlParse fileReference with
        | none => .error ("TypeError: Invalid URL")
        | some u =>
          if u.origin = host then
            let jcrPath := getJcrAssetPath u siteName
            .ok (some ⟨fileReference, jcrPath, some jcrPath, some u, true, none, none⟩)
          else
            .ok (some ⟨fileReference, fileReference, none, some u, false, none, none⟩)
      else if strStartsWith fileReference ("/content/dam/".data) then
        match urlParse (host ++ fileReference) with
        | none => .error ("TypeError: Invalid URL")
        | some u =>
          let jcrPath := getJcrAssetPath u siteName
          .ok (some ⟨fileReference, jcrPath, some jcrPath, some u, true, none, none⟩)
      else if strStartsWith fileReference ("/".data) then
        match urlParse (host ++ fileReference) with
        | none => .error ("TypeError: Invalid URL")
        | some u =>
          let jcrPath := getJcrAssetPath u siteName
          .ok (some ⟨fileReference, jcrPath, some jcrPath, some u, true, none, none⟩)
      else if strStartsWith fileReference ("./".data) then
        let parentPath := beforeLast '/' pagePath
        match urlParse (host ++ parentPath ++ fileReference.drop 1) with
        | none => .error ("TypeError: Invalid URL")
        | some u =>
          let jcrPath := getJcrAssetPath u siteName
          .ok (some ⟨fileReference, jcrPath, some jcrPath, some u, true, none, none⟩)
      else
        .ok (some ⟨fileReference, fileReference, none, none, false, none, none⟩)

/-- Embedding of `getProcessedFileRef` from the source: reads `.processedFileRef` off the
result of `getAsset` without a null guard, so an empty reference (where
`getAsset` returns `null`) throws a `TypeError`. -/
def getProcessedFileRef (fileReference pageUrl siteName : Str) : Except String Str :=
  match getAsset fileReference pageUrl siteName with
  | .error e => .error e
  | .ok none => .error ("TypeError: null has no properties")
  | .ok (some asset) => .ok asset.processedFileRef

/-- Outcome of one external `fetch` of an asset URL: a success carries the
body and the `content-type` header (which may be absent), a non-2xx
response carries its status, or the fetch rejects (transport error). -/
inductive FetchOutcome where
  | success (blob : Str) (contentType : Option Str)
  | httpError (status : Nat)
  | transportError
deriving DecidableEq, Repr

/-- JS `a || b` for a nullable string `a`: `null`, `undefined` and the
empty string are falsy. -/
def jsOrStr (a b : Option Str) : Option Str :=
  match a with
  | some s => if s = [] then b else some s
  | none => b

/-- Embedding of `fetchAssetData` from the source, with the network modelled by the
outcome oracle `fo`. On a non-2xx status the handler yields
`{blob: null, mimeType: null}`; on a rejected fetch the `catch` handler
logs and returns `undefined`, so the destructuring
`const { blob, mimeType } = ...` throws a `TypeError`. The mime type
falls back to the extension table via `||`. -/
def fetchAssetData (fo : JUrl → FetchOutcome) (asset : Asset) : Except String Asset :=
  match asset.url with
  | none => .ok asset
  | some u =>
    match fo u with
    | .success blob contentType =>
      .ok { asset with
              blob := some blob,
              mimeType :=
                jsOrStr contentType
                  (getMimeTypeFromExtension ((splitOn '.' u.pathname).getLastD [])) }
    | .httpError _ =>
      .ok { asset with
              blob := none,
              mimeType :=
                jsOrStr none
                  (getMimeTypeFromExtension ((splitOn '.' u.pathname).getLastD [])) }
    | .transportError => .error ("TypeError: cannot destructure undefined")

/-- One input page as handed to the importer: its source path, its absolute
URL and the `fileReference` attribute values its markup carries (extracted
by the external DOM query collaborator). -/
structure PageIn where
  path : Str
  url : Str
  refs : List Str
deriving DecidableEq, Repr

/-- The per-page record built by `getJcrPages`; the DOM rewrite of
`getProcessedJcr` is represented by the list of rewritten reference
values (`processedRefs`), the rest of the markup being untouched. -/
structure JcrPage where
  path : Str
  sourceRefs : List Str
  processedRefs : List Str
  jcrPath : Str
  contentXmlPath : Str
  url : Str
deriving DecidableEq, Repr

/-- The reference-processing loop of `getProcessedJcr`: rewrite each
reference via `getProcessedFileRef`; for an external (`http`-prefixed,
not bundled) reference, probe its mime type with `fetchAssetData` for the
annotation attribute. Any throw propagates. -/
def getProcessedJcrRefs (fo : JUrl → FetchOutcome) (pageUrl siteName : Str) :
    List Str → Except String (List Str)
  | [] => .ok []
  | r :: rs =>
    match getProcessedFileRef r pageUrl siteName with
    | .error e => .error e
    | .ok pf =>
      match
        ((if strStartsWith r ("http".data) then
          match getAsset r pageUrl siteName with
          | .error e => .error e
          | .ok none => .ok ()
          | .ok (some a) =>
            if a.add then .ok ()
            else
              match fetchAssetData fo a with
              | .error e => .error e
              | .ok _ => .ok ()
        else .ok ()) : Except String Unit) with
      | .error e => .error e
      | .ok _ =>
        match getProcessedJcrRefs fo pageUrl siteName rs with
        | .error e => .error e
        | .ok rest => .ok (pf :: rest)

/-- Embedding of `getJcrPages` from the source (computed fresh, i.e. with the per-run
module cache empty): one `JcrPage` per input page, in order. -/
def getJcrPages (fo : JUrl → FetchOutcome) (siteName : Str) :
    List PageIn → Except String (List JcrPage)
  | [] => .ok []
  | p :: ps =>
    match getProcessedJcrRefs fo p.url siteName p.refs with
    | .error e => .error e
    | .ok prefs =>
      match getJcrPages fo siteName ps with
      | .error e => .error e
      | .ok rest =>
        .ok ({ path := p.path
               sourceRefs := p.refs
               processedRefs := prefs
               jcrPath := getJcrPagePath p.path siteName
               contentXmlPath :=
                 "jcr_root".data ++ getJcrPagePath p.path siteName ++ "/.content.xml".data
               url := p.url } :: rest)

/-- The inner loop of `getJcrAssets` over one page's references: classify
each; append the asset when it is bundled (`add`) and no accumulated asset
already carries the same `jcrPath`. -/
def collectPageAssets (siteName pageUrl : Str) :
    List Asset → List Str → Except String (List Asset)
  | acc, [] => .ok acc
  | acc, r :: rs =>
    match getAsset r pageUrl siteName with
    | .error e => .error e
    | .ok none => collectPageAssets siteName pageUrl acc rs
    | .ok (some asset) =>
      if asset.add && (acc.find? (fun a => a.jcrPath == asset.jcrPath)).isNone then
        collectPageAssets siteName pageUrl (acc ++ [asset]) rs
      else
        collectPageAssets siteName pageUrl acc rs

/-- The outer loop of `getJcrAssets` over the pages (each page's source
markup contributes its reference list against its own URL). -/
def collectPagesAssets (siteName : Str) :
    List Asset → List PageIn → Except String (List Asset)
  | acc, [] => .ok acc
  | acc, p :: ps =>
    match collectPageAssets siteName p.url acc p.refs with
    | .error e => .error e
    | .ok acc2 => collectPagesAssets siteName acc2 ps

/-- Embedding of `getJcrAssets` from the source (per-run cache empty): first materialize
the pages (whose processing can throw), then walk every page's references
and collect the deduplicated bundled assets. -/
def getJcrAssets (fo : JUrl → FetchOutcome) (pages : List PageIn) (siteName : Str) :
    Except String (List Asset) :=
  match getJcrPages fo siteName pages with
  | .error e => .error e
  | .ok _ => collectPagesAssets siteName [] pages

/-- Embedding of `getResourcePaths(resources, false)` from the source, on page records:
keep each truthy `jcrPath`. -/
def getResourcePathsPages (resources : List JcrPage) : List Str :=
  resources.filterMap (fun r => if r.jcrPath = [] then none else some r.jcrPath)

/-- Embedding of `getResourcePaths(resources, true)` from the source, on asset records:
keep `jcrPath` when the asset is bundled and its path is truthy. -/
def getResourcePathsAssets (resources : List Asset) : List Str :=
  resources.filterMap (fun r =>
    match r.jcrPath with
    | none => none
    | some jp => if r.add && !(jp = []) then some jp else none)

/-- Embedding of `getJcrPaths` from the source: the filter-manifest path list — all page
repository paths, then all asset repository paths. -/
def getJcrPaths (fo : JUrl → FetchOutcome) (pages : List PageIn) (siteName : Str) :
    Except String (List Str) :=
  match getJcrPages fo siteName pages with
  | .error e => .error e
  | .ok jcrPages =>
    match getJcrAssets fo pages siteName with
    | .error e => .error e
    | .ok jcrAssets =>
      .ok (getResourcePathsPages jcrPages ++ getResourcePathsAssets jcrAssets)

/-- Equality of embedded fallible results is decidable, so concrete runs
of the embedded functions can be checked by evaluation. -/
instance instDecEqExcept {ε α : Type} [DecidableEq ε] [DecidableEq α] :
    DecidableEq (Except ε α) := fun a b =>
  match a, b with
  | .error e, .error f =>
    decidable_of_iff (e = f) ⟨fun h => by rw [h], fun h => by cases h; rfl⟩
  | .error _, .ok _ => isFalse (fun h => Except.noConfusion h)
  | .ok _, .error _ => isFalse (fun h => Except.noConfusion h)
  | .ok x, .ok y =>
    decidable_of_iff (x = y) ⟨fun h => by rw [h], fun h => by cases h; rfl⟩

/-! Theorems. -/

/-- C7: classifying the page-relative reference `./a/b/x.png?p=1` on the
page `https://h/1/2/page.html` under site name `s` yields a bundled asset
whose repository path is `/content/dam/s/1/2/a/b/x_p1.png` (resolution
against the page's parent directory, query parameters folded into the node
name before the extension), and the rewritten reference equals it. -/
theorem claim_C7 :
    getAsset ("./a/b/x.png?p=1".data) ("https://h/1/2/page.html".data) ("s".data) =
      .ok (some
        ⟨"./a/b/x.png?p=1".data,
         "/content/dam/s/1/2/a/b/x_p1.png".data,
         some ("/content/dam/s/1/2/a/b/x_p1.png".data),
         some ⟨"https".data, "h".data, "/1/2/a/b/x.png".data, [("p".data, "1".data)]⟩,
         true, none, none⟩) ∧
    getProcessedFileRef ("./a/b/x.png?p=1".data) ("https://h/1/2/page.html".data) ("s".data) =
      .ok ("/content/dam/s/1/2/a/b/x_p1.png".data) := by
  decide

/-- C10: a reference that begins with `http` but is not a parseable
absolute URL makes the classifier throw instead of returning a record:
`getAsset` (and hence `getProcessedFileRef`) on `httpx/a.png` is an error,
because the scheme-prefix test fires before URL parsing is known to
succeed. -/
theorem claim_C10 :
    getAsset ("httpx/a.png".data) ("https://h/p.html".data) ("s".data) =
      .error ("TypeError: Invalid URL") ∧
    getProcessedFileRef ("httpx/a.png".data) ("https://h/p.html".data) ("s".data) =
      .error ("TypeError: Invalid URL") := by
  decide

/-- C5 (code bug): on an empty reference `getAsset` returns `null` rather
than an `include=false` record, and `getProcessedFileRef` then dereferences
that `null` and throws instead of returning the reference unchanged. -/
theorem claim_C5_bug :
    getAsset [] ("https://h/p.html".data) ("s".data) = .ok none ∧
    getProcessedFileRef [] ("https://h/p.html".data) ("s".data) =
      .error ("TypeError: null has no properties") := by
  decide

/-- C4 (code bug): for a bundled asset, a transport-level fetch failure
makes `fetchAssetData` throw (the `catch` handler returns `undefined`,
which the destructuring then dereferences) instead of returning normally;
and on a non-success HTTP status the mime type is not left `null` but
filled from the extension table. -/
theorem claim_C4_bug :
    fetchAssetData (fun _ => .transportError)
        ⟨"/x.png".data, "/content/dam/s/x.png".data, some ("/content/dam/s/x.png".data),
         some ⟨"https".data, "h".data, "/x.png".data, []⟩, true, none, none⟩ =
      .error ("TypeError: cannot destructure undefined") ∧
    fetchAssetData (fun _ => .httpError 404)
        ⟨"/x.png".data, "/content/dam/s/x.png".data, some ("/content/dam/s/x.png".data),
         some ⟨"https".data, "h".data, "/x.png".data, []⟩, true, none, none⟩ =
      .ok ⟨"/x.png".data, "/content/dam/s/x.png".data, some ("/content/dam/s/x.png".data),
           some ⟨"https".data, "h".data, "/x.png".data, []⟩, true, none,
           some ("image/png".data)⟩ := by
  decide

/-- C2 counterexample: the sanitizer caps the number of replacement
entries at 64, not the number of characters; 33 copies of `ß` (each
mapping to `ss`) yield a 66-character output, so the stated 64-character
bound fails. -/
theorem claim_C2_counterexample :
    ¬ ((getSiteName (List.replicate 33 'ß')).length ≤ 64) := by
  decide

/-- C9 counterexample: `getJcrPagePath` is not idempotent on the stated
hypothesis. For `p = foo`, `s = x` the first application yields
`/content/xfoo`, which starts with `/content/x`, yet a second application
yields `/content/x`. -/
theorem claim_C9_counterexample :
    strStartsWith (getJcrPagePath ("foo".data) ("x".data)) ("/content/x".data) = true ∧
    getJcrPagePath (getJcrPagePath ("foo".data) ("x".data)) ("x".data) ≠
      getJcrPagePath ("foo".data) ("x".data) := by
  decide

/-- C6 counterexample: for the URL `https://h/a.b/c?k=v`, whose only `.`
lies in a directory segment, the claim predicts an empty extension and an
intact path, i.e. `/content/dam/s/a.b/c_kv`; the code instead recovers the
extension `.b/c` across the segment boundary and produces
`/content/dam/s/a_kv.b/c`. -/
theorem claim_C6_counterexample :
    getJcrAssetPath ⟨"https".data, "h".data, "/a.b/c".data, [("k".data, "v".data)]⟩
        ("s".data) = "/content/dam/s/a_kv.b/c".data ∧
    getJcrAssetPath ⟨"https".data, "h".data, "/a.b/c".data, [("k".data, "v".data)]⟩
        ("s".data) ≠ "/content/dam/s/a.b/c_kv".data := by
  decide

/-- C8 counterexample, refuting two conjuncts of the claim. First, a
placeholder can be emitted after 16 real (non-placeholder) output
characters have been produced: the escape budget compares `name.length`,
which counts entries, and a real entry may be two characters — eight `ß`
inputs yield 16 real output characters in 8 entries, and a following
unmapped `.` still emits a placeholder. Second, scanned input characters
do not count toward the 64 cap — only emitted entries do; if every
scanned character consumed cap budget the output would be a function of
the first 64 input characters, yet for 65 dots followed by `a` the code
still emits the `a`. -/
theorem claim_C8_counterexample :
    (getSiteName (List.replicate 8 'ß' ++ ['.']) =
      List.replicate 16 's' ++ ['_'] ∧
     (List.replicate 16 's' : Str).length = 16 ∧
     ('_' : Char) ∉ (List.replicate 16 's' : Str)) ∧
    getSiteName (List.replicate 65 '.' ++ ['a']) ≠
      getSiteName ((List.replicate 65 '.' ++ ['a']).take 64) := by
  decide

/-- C3 counterexample: the filter manifest can contain the same path
twice — two input pages with the same source path yield their common
repository path twice, so the stated no-duplicates property fails. -/
theorem claim_C3_counterexample :
    getJcrPaths (fun _ => .httpError 404)
        [⟨"/a".data, "https://h/a.html".data, []⟩,
         ⟨"/a".data, "https://h/b.html".data, []⟩] ("s".data) =
      .ok ["/content/s/a".data, "/content/s/a".data] ∧
    ¬ (["/content/s/a".data, "/content/s/a".data] : List Str).Nodup := by
  constructor
  · rfl
  · decide

/-- The split helper never returns an empty piece list. -/
theorem splitOn_ne_nil (c : Char) (s : Str) : splitOn c s ≠ [] := by
  induction s with
  | nil => simp [splitOn]
  | cons a s ih =>
    simp only [splitOn]
    split
    · simp
    · cases h : splitOn c s with
      | nil => exact absurd h ih
      | cons x t => simp

/-- Splitting a separator-free string yields that single piece. -/
theorem splitOn_of_not_mem {c : Char} {s : Str} (h : c ∉ s) : splitOn c s = [s] := by
  induction s with
  | nil => rfl
  | cons a s ih =>
    have ha : ¬ a = c := fun e => h (by simp [e])
    have hs : c ∉ s := fun e => h (List.mem_cons_of_mem _ e)
    simp [splitOn, ha, ih hs]

/-- A string containing the separator splits into at least two pieces. -/
theorem two_le_length_splitOn {c : Char} {s : Str} (h : c ∈ s) :
    2 ≤ (splitOn c s).length := by
  induction s with
  | nil => cases h
  | cons a s ih =>
    by_cases ha : a = c
    · have h1 : splitOn c s ≠ [] := splitOn_ne_nil c s
      cases hs : splitOn c s with
      | nil => exact absurd hs h1
      | cons x t => simp [splitOn, ha, hs]
    · have hs : c ∈ s := by
        cases List.mem_cons.mp h with
        | inl e => exact absurd e.symm ha
        | inr e => exact e
      cases hsp : splitOn c s with
      | nil => exact absurd hsp (splitOn_ne_nil c s)
      | cons x t =>
        have := ih hs
        rw [hsp] at this
        simp only [splitOn, if_neg ha, hsp]
        simpa using this

/-- The `split('.').pop()` idiom of `getJcrAssetPath` computes exactly the
substring after the final dot. -/
theorem getLastD_splitOn_eq_afterLastDot (p : Str) :
    (splitOn '.' p).getLastD [] = afterLastDot p := by
  induction p with
  | nil => rfl
  | cons c r ih =>
    by_cases hr : ('.' : Char) ∈ r
    · by_cases hc : c = '.'
      · have h2 := splitOn_ne_nil '.' r
        cases hs : splitOn '.' r with
        | nil => exact absurd hs h2
        | cons x t =>
          rw [hs] at ih
          simp [splitOn, hc, afterLastDot, hr, hs, ← ih, List.getLastD_eq_getLast?]
      · have h2 := two_le_length_splitOn hr
        cases hs : splitOn '.' r with
        | nil => exact absurd hs (splitOn_ne_nil '.' r)
        | cons x t =>
          rw [hs] at ih h2
          cases t with
          | nil => simp at h2
          | cons y u =>
            simp only [splitOn, if_neg hc, hs]
            simp only [afterLastDot, if_pos hr]
            rw [← ih]
            simp [List.getLastD_eq_getLast?]
    · have hs : splitOn '.' r = [r] := splitOn_of_not_mem hr
      by_cases hc : c = '.'
      · simp [splitOn, hc, hs, afterLastDot, hr]
      · simp [splitOn, hc, hs, afterLastDot, hr]

/-- C6 (amended): the asset path mapper recovers the extension as the
substring after the final `.` occurring anywhere in the URL path — not
merely in its last segment — (empty when the path has no `.`), and the
extension-less base is the path with the first occurrence of that
extension string removed; the source's `split`/`pop`/`replace` computation
coincides with this characterization on every URL. -/
theorem claim_C6_amended (u : JUrl) (s : Str) :
    getJcrAssetPath u s = assetPathSpec u s := by
  simp only [getJcrAssetPath, assetPathSpec, getLastD_splitOn_eq_afterLastDot]

set_option maxRecDepth 8192 in
/-- Every entry of the replacement table is at most two characters long and
drawn from the node-name alphabet. -/
theorem labelCharMapping_ok :
    ∀ e ∈ labelCharMapping, e.length ≤ 2 ∧ ∀ ch ∈ e, allowedChar ch = true := by
  decide

/-- Any replacement the sanitizer looks up (in range or the default) is at
most two characters long and drawn from the node-name alphabet. -/
theorem lookup_ok (code : Nat) :
    (labelCharMapping.getD code defaultReplacementCharacter).length ≤ 2 ∧
      ∀ ch ∈ labelCharMapping.getD code defaultReplacementCharacter,
        allowedChar ch = true := by
  by_cases h : code < labelCharMapping.length
  · rw [List.getD_eq_getElem?_getD, List.getElem?_eq_getElem h]
    exact labelCharMapping_ok _ (List.getElem_mem h)
  · rw [List.getD_eq_getElem?_getD, List.getElem?_eq_none (Nat.le_of_not_lt h)]
    decide

/-- Every entry accumulated by the sanitizer loop is a short entry over the
node-name alphabet, provided the accumulator already was. -/
theorem siteNameLoop_entries_ok :
    ∀ (inp : Str) (acc : List Str) (p : Bool),
      (∀ e ∈ acc, e.length ≤ 2 ∧ ∀ ch ∈ e, allowedChar ch = true) →
      ∀ e ∈ siteNameLoop acc p inp, e.length ≤ 2 ∧ ∀ ch ∈ e, allowedChar ch = true := by
  intro inp
  induction inp with
  | nil => intro acc p h; simpa [siteNameLoop] using h
  | cons c rest ih =>
    intro acc p h
    simp only [siteNameLoop]
    split
    · exact h
    · split
      · apply ih
        intro e he
        split at he
        · rcases List.mem_append.mp he with h1 | h1
          · exact h e h1
          · rw [List.mem_singleton.mp h1]
            decide
        · exact h e he
      · apply ih
        intro e he
        rcases List.mem_append.mp he with h1 | h1
        · exact h e h1
        · rw [List.mem_singleton.mp h1]
          exact lookup_ok c.toNat

/-- The sanitizer loop never grows the accumulator past 64 entries. -/
theorem siteNameLoop_length_le :
    ∀ (inp : Str) (acc : List Str) (p : Bool),
      acc.length ≤ 64 → (siteNameLoop acc p inp).length ≤ 64 := by
  intro inp
  induction inp with
  | nil => intro acc p h; simpa [siteNameLoop] using h
  | cons c rest ih =>
    intro acc p h
    simp only [siteNameLoop]
    split
    · exact h
    · rename_i hlt
      have h64 : acc.length < 64 := Nat.lt_of_not_le (fun hh => hlt (by simpa using hh))
      split
      · apply ih
        split
        · simp only [List.length_append, List.length_singleton]
          omega
        · exact h
      · apply ih
        simp only [List.length_append, List.length_singleton]
        omega

/-- Flattening a list of entries of length at most two gives a string of at
most twice as many characters. -/
theorem flatten_length_le_two_mul :
    ∀ l : List Str, (∀ e ∈ l, e.length ≤ 2) → l.flatten.length ≤ 2 * l.length := by
  intro l
  induction l with
  | nil => intro _; simp
  | cons e t ih =>
    intro h
    have he := h e (List.mem_cons_self e t)
    have ht := ih (fun x hx => h x (List.mem_cons_of_mem e hx))
    simp only [List.flatten_cons, List.length_append, List.length_cons]
    omega

/-- C2 (amended): every character of the sanitized site name is a lowercase
ASCII letter, digit, underscore or hyphen, and its length is at most 128
characters — the 64 bound of the source caps replacement entries, each of
which can be two characters (for example `ss`, `ae`, `ue`). -/
theorem claim_C2_amended (s : Str) :
    (∀ ch ∈ getSiteName s, allowedChar ch = true) ∧ (getSiteName s).length ≤ 128 := by
  have hok := siteNameLoop_entries_ok s [] false (by intro e he; cases he)
  have hlen := siteNameLoop_length_le s [] false (by simp)
  constructor
  · intro ch hch
    rcases List.mem_flatten.mp hch with ⟨e, he, hch2⟩
    exact (hok e he).2 ch hch2
  · have := flatten_length_le_two_mul (siteNameLoop [] false s) (fun e he => (hok e he).1)
    calc (getSiteName s).length ≤ 2 * (siteNameLoop [] false s).length := this
    _ ≤ 2 * 64 := by omega
    _ ≤ 128 := by omega

/-- The sanitizer loop never places two placeholder entries next to each
other: a placeholder is only appended when the previous scanned character
was not escaped, and then the accumulator does not end in a placeholder. -/
theorem siteNameLoop_chain :
    ∀ (inp : Str) (acc : List Str) (p : Bool),
      List.Chain' (fun a b =>
        ¬(a = defaultReplacementCharacter ∧ b = defaultReplacementCharacter)) acc →
      (p = false → ∀ e ∈ acc.getLast?, e ≠ defaultReplacementCharacter) →
      List.Chain' (fun a b =>
        ¬(a = defaultReplacementCharacter ∧ b = defaultReplacementCharacter))
        (siteNameLoop acc p inp) := by
  intro inp
  induction inp with
  | nil => intro acc p hc _; simpa [siteNameLoop] using hc
  | cons c rest ih =>
    intro acc p hc hlast
    simp only [siteNameLoop]
    split
    · exact hc
    · split
      · apply ih _ true
        · split
          · rename_i hcond
            have hp : p = false := by
              cases p
              · rfl
              · simp at hcond
            rw [List.chain'_append]
            refine ⟨hc, List.chain'_singleton _, ?_⟩
            intro x hx y hy
            rw [List.head?_cons, Option.mem_some_iff] at hy
            intro hxy
            exact hlast hp x hx hxy.1
          · exact hc
        · intro hfalse
          cases hfalse
      · rename_i hrepl
        apply ih _ false
        · rw [List.chain'_append]
          refine ⟨hc, List.chain'_singleton _, ?_⟩
          intro x hx y hy
          rw [List.head?_cons, Option.mem_some_iff] at hy
          intro hxy
          exact hrepl (hy ▸ hxy.2)
        · intro _
          intro e he
          rw [List.getLast?_concat, Option.mem_some_iff] at he
          subst he
          exact hrepl

/-- After the first 16 accumulated entries the sanitizer never appends a
placeholder: the escape budget compares against the whole accumulator
length. -/
theorem siteNameLoop_drop16 :
    ∀ (inp : Str) (acc : List Str) (p : Bool),
      defaultReplacementCharacter ∉ acc.drop 16 →
      defaultReplacementCharacter ∉ (siteNameLoop acc p inp).drop 16 := by
  intro inp
  induction inp with
  | nil => intro acc p h; simpa [siteNameLoop] using h
  | cons c rest ih =>
    intro acc p h
    simp only [siteNameLoop]
    split
    · exact h
    · split
      · apply ih
        split
        · rename_i hcond
          have h16 : acc.length < 16 := by
            rcases Bool.and_eq_true_iff.mp hcond with ⟨-, h2⟩
            simpa using h2
          have : (acc ++ [defaultReplacementCharacter]).length ≤ 16 := by
            simp only [List.length_append, List.length_singleton]
            omega
          rw [List.drop_eq_nil_of_le this]
          simp
        · exact h
      · rename_i hrepl
        apply ih
        intro hmem
        rw [List.drop_append_eq_append_drop] at hmem
        rcases List.mem_append.mp hmem with h1 | h1
        · exact h h1
        · have := List.mem_of_mem_drop h1
          rw [List.mem_singleton] at this
          exact hrepl this.symm

/-- C8 (amended): the sanitizer never emits two adjacent placeholder
entries; no placeholder entry appears beyond the first 16 output entries —
a budget measured in entries, not in real output characters, so a
placeholder can still follow 16 real characters produced by two-character
entries; and the 64-entry hard cap counts emitted entries only — scanned
characters whose placeholder is suppressed consume no cap budget. The
output string is the join of these entries. -/
theorem claim_C8_amended (s : Str) :
    List.Chain' (fun a b =>
      ¬(a = defaultReplacementCharacter ∧ b = defaultReplacementCharacter))
      (siteNameLoop [] false s) ∧
    defaultReplacementCharacter ∉ (siteNameLoop [] false s).drop 16 ∧
    (siteNameLoop [] false s).length ≤ 64 ∧
    getSiteName s = (siteNameLoop [] false s).flatten := by
  refine ⟨?_, ?_, ?_, rfl⟩
  · apply siteNameLoop_chain s [] false List.chain'_nil
    intro _ e he
    cases he
  · apply siteNameLoop_drop16 s [] false
    simp
  · exact siteNameLoop_length_le s [] false (by simp)

/-- The startsWith helper holds exactly when the pattern is a prefix. -/
theorem strStartsWith_iff (s p : Str) : strStartsWith s p = true ↔ ∃ t, s = p ++ t := by
  induction p generalizing s with
  | nil =>
    constructor
    · intro _; exact ⟨s, rfl⟩
    · intro _; cases s <;> rfl
  | cons a ps ih =>
    cases s with
    | nil =>
      constructor
      · intro h; cases h
      · rintro ⟨t, ht⟩; cases ht
    | cons c s' =>
      simp only [strStartsWith, Bool.and_eq_true, beq_iff_eq, ih, List.cons_append,
        List.cons.injEq]
      constructor
      · rintro ⟨h1, t, h2⟩; exact ⟨t, h1, h2⟩
      · rintro ⟨t, h1, h2⟩; exact ⟨h1, t, h2⟩

/-- Join of a two-or-more element list, unfolded. -/
theorem joinSep_cons₂ (c : Char) (x y : Str) (t : List Str) :
    joinSep c (x :: y :: t) = x ++ c :: joinSep c (y :: t) := rfl

/-- Join of a singleton, unfolded. -/
theorem joinSep_single (c : Char) (x : Str) : joinSep c [x] = x := rfl

/-- Splitting after a leading separator yields a leading empty piece. -/
theorem splitOn_cons_self (c : Char) (x : Str) :
    splitOn c (c :: x) = [] :: splitOn c x := by
  simp [splitOn]

/-- Splitting a string that starts with a separator-free piece followed by
the separator peels off that piece. -/
theorem splitOn_append_cons_sep {c : Char} {x : Str} (h : c ∉ x) (r : Str) :
    splitOn c (x ++ c :: r) = x :: splitOn c r := by
  induction x with
  | nil => simp [splitOn]
  | cons a x' ih =>
    have ha : ¬ a = c := fun e => h (by simp [e])
    have hx : c ∉ x' := fun e => h (List.mem_cons_of_mem _ e)
    rw [List.cons_append]
    simp [splitOn, ha, ih hx]

/-- Joining the pieces of a split restores the original string. -/
theorem joinSep_splitOn (c : Char) (s : Str) : joinSep c (splitOn c s) = s := by
  induction s with
  | nil => rfl
  | cons a s' ih =>
    by_cases ha : a = c
    · subst ha
      rw [splitOn_cons_self]
      cases hs : splitOn a s' with
      | nil => exact absurd hs (splitOn_ne_nil a s')
      | cons h0 t0 =>
        rw [hs] at ih
        rw [joinSep_cons₂, ih]
        rfl
    · cases hs : splitOn c s' with
      | nil => exact absurd hs (splitOn_ne_nil c s')
      | cons h0 t0 =>
        rw [hs] at ih
        simp only [splitOn, if_neg ha, hs]
        cases t0 with
        | nil =>
          rw [joinSep_single] at ih ⊢
          rw [ih]
        | cons y u =>
          rw [joinSep_cons₂] at ih ⊢
          rw [List.cons_append, ih]

/-- No piece of a split contains the separator. -/
theorem not_mem_splitOn (c : Char) (s : Str) : ∀ e ∈ splitOn c s, c ∉ e := by
  induction s with
  | nil =>
    intro e he
    have : e = [] := List.mem_singleton.mp he
    rw [this]
    exact List.not_mem_nil c
  | cons a s' ih =>
    intro e he
    by_cases ha : a = c
    · subst ha
      rw [splitOn_cons_self] at he
      rcases List.mem_cons.mp he with h1 | h1
      · rw [h1]; exact List.not_mem_nil a
      · exact ih e h1
    · cases hs : splitOn c s' with
      | nil => exact absurd hs (splitOn_ne_nil c s')
      | cons h0 t0 =>
        rw [hs] at ih
        simp only [splitOn, if_neg ha, hs] at he
        rcases List.mem_cons.mp he with h1 | h1
        · rw [h1]
          intro hc
          rcases List.mem_cons.mp hc with h2 | h2
          · exact ha h2.symm
          · exact ih h0 (List.mem_cons_self h0 t0) h2
        · exact ih e (List.mem_cons_of_mem h0 h1)

/-- Splitting a join of separator-free pieces restores the pieces. -/
theorem splitOn_joinSep {c : Char} :
    ∀ l : List Str, l ≠ [] → (∀ e ∈ l, c ∉ e) → splitOn c (joinSep c l) = l := by
  intro l
  induction l with
  | nil => intro h; exact absurd rfl h
  | cons x t ih =>
    intro _ hall
    cases t with
    | nil =>
      rw [joinSep_single]
      exact splitOn_of_not_mem (hall x (List.mem_cons_self x []))
    | cons y u =>
      rw [joinSep_cons₂,
        splitOn_append_cons_sep (hall x (List.mem_cons_self x (y :: u))),
        ih (List.cons_ne_nil y u) (fun e he => hall e (List.mem_cons_of_mem x he))]

/-- The sanitized site name never contains a slash (its alphabet is
letters, digits, underscore and hyphen). -/
theorem slash_not_mem_getSiteName (s : Str) : ('/' : Char) ∉ getSiteName s := by
  intro h
  rcases List.mem_flatten.mp h with ⟨e, he, h2⟩
  have hok := siteNameLoop_entries_ok s [] false (by intro x hx; cases hx) e he
  have := hok.2 _ h2
  exact absurd this (by decide)

/-- Prepending the content root to a string, written in cons form. -/
theorem contentPrefix_eq (X : Str) :
    "/content/".data ++ X = '/' :: ("content".data ++ '/' :: X) := rfl

/-- A path of the shape `/content/{siteName}/…` with slash-free tail pieces
is a fixed point of the page path mapper: re-splitting recovers the same
pieces and the splice re-installs the same site name. -/
theorem pagePath_fixed (cfg : Str) (t0 : List Str)
    (ht : ∀ e ∈ t0, ('/' : Char) ∉ e) :
    getJcrPagePath (joinSep '/' ([] :: "content".data :: getSiteName cfg :: t0)) cfg =
      joinSep '/' ([] :: "content".data :: getSiteName cfg :: t0) := by
  have hfree : ∀ e ∈ ([] :: "content".data :: getSiteName cfg :: t0), ('/' : Char) ∉ e := by
    intro e he
    rcases List.mem_cons.mp he with h1 | he
    · rw [h1]; exact List.not_mem_nil _
    rcases List.mem_cons.mp he with h1 | he
    · rw [h1]; decide
    rcases List.mem_cons.mp he with h1 | he
    · rw [h1]; exact slash_not_mem_getSiteName cfg
    · exact ht e he
  have hsw : strStartsWith (joinSep '/' ([] :: "content".data :: getSiteName cfg :: t0))
      ("/content/".data) = true := by
    rw [strStartsWith_iff]
    refine ⟨joinSep '/' (getSiteName cfg :: t0), ?_⟩
    rw [joinSep_cons₂, joinSep_cons₂, contentPrefix_eq]
    rfl
  simp only [getJcrPagePath]
  rw [if_pos hsw,
    splitOn_joinSep ([] :: "content".data :: getSiteName cfg :: t0)
      (List.cons_ne_nil _ _) hfree]
  rfl

/-- C9 (amended): the page path mapper is idempotent on every source path
that begins with `/` — one application roots the path at
`/content/{siteName}/…`, and a second application re-splits it and
substitutes the identical site name. (For inputs without a leading slash
idempotence fails, see the counterexample.) -/
theorem claim_C9_amended (p' cfg : Str) :
    getJcrPagePath (getJcrPagePath ('/' :: p') cfg) cfg =
      getJcrPagePath ('/' :: p') cfg := by
  by_cases h : strStartsWith ('/' :: p') ("/content/".data) = true
  · obtain ⟨r, hr⟩ := (strStartsWith_iff _ _).mp h
    cases hsp : splitOn '/' r with
    | nil => exact absurd hsp (splitOn_ne_nil '/' r)
    | cons h0 t0 =>
      have hinner : getJcrPagePath ('/' :: p') cfg =
          joinSep '/' ([] :: "content".data :: getSiteName cfg :: t0) := by
        rw [hr]
        simp only [getJcrPagePath]
        have hc : strStartsWith ("/content/".data ++ r) ("/content/".data) = true :=
          (strStartsWith_iff _ _).mpr ⟨r, rfl⟩
        rw [if_pos hc]
        have hsp2 : splitOn '/' ("/content/".data ++ r) =
            [] :: "content".data :: splitOn '/' r := by
          rw [contentPrefix_eq, splitOn_cons_self, splitOn_append_cons_sep (by decide)]
        rw [hsp2, hsp]
        rfl
      rw [hinner]
      refine pagePath_fixed cfg t0 ?_
      intro e he
      exact not_mem_splitOn '/' r e (hsp ▸ List.mem_cons_of_mem h0 he)
  · have hcons : joinSep '/' (getSiteName cfg :: splitOn '/' p') =
        getSiteName cfg ++ '/' :: p' := by
      cases hsp : splitOn '/' p' with
      | nil => exact absurd hsp (splitOn_ne_nil '/' p')
      | cons h0 t0 =>
        rw [joinSep_cons₂]
        have hj := joinSep_splitOn '/' p'
        rw [hsp] at hj
        rw [hj]
    have hinner : getJcrPagePath ('/' :: p') cfg =
        joinSep '/' ([] :: "content".data :: getSiteName cfg :: splitOn '/' p') := by
      simp only [getJcrPagePath]
      rw [if_neg h, joinSep_cons₂, joinSep_cons₂, hcons]
      simp [List.append_assoc]
    rw [hinner]
    exact pagePath_fixed cfg (splitOn '/' p') (not_mem_splitOn '/' p')

/-- Prepending the asset root to a string, written in cons form. -/
theorem contentDamPrefix_eq (X : Str) :
    "/content/dam/".data ++ X =
      '/' :: ("content".data ++ '/' :: ("dam".data ++ '/' :: X)) := rfl

/-- The `/content/dam/` splice-and-rejoin of the asset path mapper is
never empty. -/
theorem joinSep_spliceAt3_ne_nil {path : Str}
    (hdam : strStartsWith path ("/content/dam/".data) = true) (site ext : Str) :
    joinSep '/' (spliceAt (splitOn '/' path) 3 site) ++ ext ≠ [] := by
  obtain ⟨t, ht⟩ := (strStartsWith_iff _ _).mp hdam
  rw [ht]
  have hsplit : splitOn '/' ("/content/dam/".data ++ t) =
      [] :: "content".data :: "dam".data :: splitOn '/' t := by
    rw [contentDamPrefix_eq, splitOn_cons_self,
      splitOn_append_cons_sep (by decide), splitOn_append_cons_sep (by decide)]
  rw [hsplit]
  cases hsp : splitOn '/' t with
  | nil => exact absurd hsp (splitOn_ne_nil '/' t)
  | cons h0 t0 =>
    intro hnil
    have hsplice : spliceAt ([] :: "content".data :: "dam".data :: h0 :: t0) 3 site =
        [] :: "content".data :: "dam".data :: site :: t0 := rfl
    rw [hsplice, joinSep_cons₂] at hnil
    simp at hnil

/-- The asset path mapper never returns the empty string. -/
theorem getJcrAssetPath_ne_nil (u : JUrl) (s : Str) : getJcrAssetPath u s ≠ [] := by
  simp only [getJcrAssetPath]
  split
  · split
    · rename_i hdam
      exact joinSep_spliceAt3_ne_nil hdam _ _
    · intro hnil
      rw [contentDamPrefix_eq] at hnil
      simp at hnil
  · split
    · rename_i hdam
      exact joinSep_spliceAt3_ne_nil hdam _ _
    · intro hnil
      rw [contentDamPrefix_eq] at hnil
      simp at hnil

/-- The page path mapper never returns the empty string. -/
theorem getJcrPagePath_ne_nil (p cfg : Str) : getJcrPagePath p cfg ≠ [] := by
  simp only [getJcrPagePath]
  split
  · rename_i hc
    obtain ⟨t, ht⟩ := (strStartsWith_iff _ _).mp hc
    rw [ht]
    have hsplit : splitOn '/' ("/content/".data ++ t) =
        [] :: "content".data :: splitOn '/' t := by
      rw [contentPrefix_eq, splitOn_cons_self, splitOn_append_cons_sep (by decide)]
    rw [hsplit]
    cases hsp : splitOn '/' t with
    | nil => exact absurd hsp (splitOn_ne_nil '/' t)
    | cons h0 t0 =>
      intro hnil
      have : spliceAt ([] :: "content".data :: h0 :: t0) 2 (getSiteName cfg) =
          [] :: "content".data :: getSiteName cfg :: t0 := rfl
      rw [this, joinSep_cons₂] at hnil
      simp at hnil
  · intro hnil
    simp [contentPrefix_eq, List.append_assoc] at hnil

/-- A bundled (`add = true`) classification always carries a non-empty
repository path that equals its rewritten reference value. -/
theorem getAsset_some_add {r u s : Str} {a : Asset}
    (h : getAsset r u s = .ok (some a)) (ha : a.add = true) :
    ∃ jp, a.jcrPath = some jp ∧ a.processedFileRef = jp ∧ jp ≠ [] := by
  simp only [getAsset] at h
  split at h
  · exact Option.noConfusion (Except.ok.inj h)
  · split at h
    · exact Except.noConfusion h
    · split at h
      · split at h
        · exact Except.noConfusion h
        · split at h
          · cases Option.some.inj (Except.ok.inj h)
            exact ⟨_, rfl, rfl, getJcrAssetPath_ne_nil _ s⟩
          · cases Option.some.inj (Except.ok.inj h)
            exact absurd ha (by simp)
      · split at h
        · split at h
          · exact Except.noConfusion h
          · cases Option.some.inj (Except.ok.inj h)
            exact ⟨_, rfl, rfl, getJcrAssetPath_ne_nil _ s⟩
        · split at h
          · split at h
            · exact Except.noConfusion h
            · cases Option.some.inj (Except.ok.inj h)
              exact ⟨_, rfl, rfl, getJcrAssetPath_ne_nil _ s⟩
          · split at h
            · split at h
              · exact Except.noConfusion h
              · cases Option.some.inj (Except.ok.inj h)
                exact ⟨_, rfl, rfl, getJcrAssetPath_ne_nil _ s⟩
            · cases Option.some.inj (Except.ok.inj h)
              exact absurd ha (by simp)

/-- The rewritten reference of any successfully classified asset is exactly
what `getProcessedFileRef` returns. -/
theorem getProcessedFileRef_of_getAsset {r u s : Str} {a : Asset}
    (h : getAsset r u s = .ok (some a)) :
    getProcessedFileRef r u s = .ok a.processedFileRef := by
  rw [getProcessedFileRef, h]

/-- Invariants of the per-page collection loop: the accumulator is only
appended to, appended assets are bundled classifications of the page's
references, path-distinctness is preserved, and every bundled reference is
represented in the result by an asset with the same repository path. -/
theorem collectPageAssets_spec (s u : Str) :
    ∀ (rs : List Str) (acc l : List Asset),
      collectPageAssets s u acc rs = .ok l →
      (∃ t, l = acc ++ t ∧
        ∀ a ∈ t, a.add = true ∧ ∃ r ∈ rs, getAsset r u s = .ok (some a)) ∧
      (acc.Pairwise (fun a b => a.jcrPath ≠ b.jcrPath) →
        l.Pairwise (fun a b => a.jcrPath ≠ b.jcrPath)) ∧
      (∀ r ∈ rs, ∀ a : Asset, getAsset r u s = .ok (some a) → a.add = true →
        ∃ b ∈ l, b.jcrPath = a.jcrPath) := by
  intro rs
  induction rs with
  | nil =>
    intro acc l h
    have hl : acc = l := Except.ok.inj h
    subst hl
    refine ⟨⟨[], by simp, by simp⟩, fun hp => hp, ?_⟩
    intro r hr
    cases hr
  | cons r rs ih =>
    intro acc l h
    rw [collectPageAssets] at h
    cases hga : getAsset r u s with
    | error e => rw [hga] at h; exact Except.noConfusion h
    | ok o =>
      rw [hga] at h
      cases o with
      | none =>
        obtain ⟨⟨t, ht, hta⟩, hpw, hrep⟩ := ih acc l h
        refine ⟨⟨t, ht, ?_⟩, hpw, ?_⟩
        · intro a hat
          obtain ⟨hadd, r', hr', hg⟩ := hta a hat
          exact ⟨hadd, r', List.mem_cons_of_mem r hr', hg⟩
        · intro r' hr' a hga' hadd
          rcases List.mem_cons.mp hr' with h1 | h1
          · subst h1
            rw [hga'] at hga
            exact Option.noConfusion (Except.ok.inj hga).symm
          · exact hrep r' h1 a hga' hadd
      | some asset =>
        have h : (if (asset.add &&
              (acc.find? (fun a => a.jcrPath == asset.jcrPath)).isNone) = true then
            collectPageAssets s u (acc ++ [asset]) rs
          else collectPageAssets s u acc rs) = .ok l := h
        by_cases hcond :
            (asset.add && (acc.find? (fun a => a.jcrPath == asset.jcrPath)).isNone) = true
        · rw [if_pos hcond] at h
          obtain ⟨hadd, hnone⟩ := Bool.and_eq_true_iff.mp hcond
          have hfind := Option.isNone_iff_eq_none.mp hnone
          obtain ⟨⟨t, ht, hta⟩, hpw, hrep⟩ := ih (acc ++ [asset]) l h
          have hmem_asset : asset ∈ l := by
            rw [ht]
            exact List.mem_append_left t (List.mem_append_right acc (by simp))
          refine ⟨⟨asset :: t, by rw [ht, List.append_assoc]; rfl, ?_⟩, ?_, ?_⟩
          · intro a hat
            rcases List.mem_cons.mp hat with h1 | h1
            · subst h1
              exact ⟨hadd, r, List.mem_cons_self r rs, hga⟩
            · obtain ⟨ha, r', hr', hg⟩ := hta a h1
              exact ⟨ha, r', List.mem_cons_of_mem r hr', hg⟩
          · intro hpacc
            apply hpw
            rw [List.pairwise_append]
            refine ⟨hpacc, List.pairwise_singleton _ _, ?_⟩
            intro x hx b hb
            rw [List.mem_singleton.mp hb]
            have := List.find?_eq_none.mp hfind x hx
            intro heq
            exact this (by rw [beq_iff_eq]; exact heq)
          · intro r' hr' a hga' hadd'
            rcases List.mem_cons.mp hr' with h1 | h1
            · subst h1
              rw [hga'] at hga
              have haeq : asset = a := (Option.some.inj (Except.ok.inj hga)).symm
              subst haeq
              exact ⟨asset, hmem_asset, rfl⟩
            · exact hrep r' h1 a hga' hadd'
        · rw [if_neg hcond] at h
          obtain ⟨⟨t, ht, hta⟩, hpw, hrep⟩ := ih acc l h
          refine ⟨⟨t, ht, ?_⟩, hpw, ?_⟩
          · intro a hat
            obtain ⟨ha, r', hr', hg⟩ := hta a hat
            exact ⟨ha, r', List.mem_cons_of_mem r hr', hg⟩
          · intro r' hr' a hga' hadd'
            rcases List.mem_cons.mp hr' with h1 | h1
            · subst h1
              rw [hga'] at hga
              have haeq : asset = a := (Option.some.inj (Except.ok.inj hga)).symm
              subst haeq
              cases hfd : acc.find? (fun b => b.jcrPath == asset.jcrPath) with
              | none =>
                exfalso
                apply hcond
                rw [hadd', hfd]
                rfl
              | some b =>
                have hbmem : b ∈ acc := List.mem_of_find?_eq_some hfd
                have hbeq : b.jcrPath = asset.jcrPath := by
                  have := List.find?_some hfd
                  rwa [beq_iff_eq] at this
                exact ⟨b, by rw [ht]; exact List.mem_append_left t hbmem, hbeq⟩
            · exact hrep r' h1 a hga' hadd'

/-- Invariants of the whole-run collection loop, accumulated over all
pages. -/
theorem collectPagesAssets_spec (s : Str) :
    ∀ (pages : List PageIn) (acc l : List Asset),
      collectPagesAssets s acc pages = .ok l →
      (∃ t, l = acc ++ t ∧
        ∀ a ∈ t, a.add = true ∧
          ∃ p ∈ pages, ∃ r ∈ p.refs, getAsset r p.url s = .ok (some a)) ∧
      (acc.Pairwise (fun a b => a.jcrPath ≠ b.jcrPath) →
        l.Pairwise (fun a b => a.jcrPath ≠ b.jcrPath)) ∧
      (∀ p ∈ pages, ∀ r ∈ p.refs, ∀ a : Asset,
        getAsset r p.url s = .ok (some a) → a.add = true →
        ∃ b ∈ l, b.jcrPath = a.jcrPath) := by
  intro pages
  induction pages with
  | nil =>
    intro acc l h
    have hl : acc = l := Except.ok.inj h
    subst hl
    refine ⟨⟨[], by simp, by simp⟩, fun hp => hp, ?_⟩
    intro p hp
    cases hp
  | cons p ps ih =>
    intro acc l h
    rw [collectPagesAssets] at h
    cases hcp : collectPageAssets s p.url acc p.refs with
    | error e => rw [hcp] at h; exact Except.noConfusion h
    | ok acc2 =>
      rw [hcp] at h
      obtain ⟨⟨t1, ht1, hta1⟩, hpw1, hrep1⟩ := collectPageAssets_spec s p.url p.refs acc acc2 hcp
      obtain ⟨⟨t2, ht2, hta2⟩, hpw2, hrep2⟩ := ih acc2 l h
      have hacc2_sub : ∀ b ∈ acc2, b ∈ l := by
        intro b hb
        rw [ht2]
        exact List.mem_append_left t2 hb
      refine ⟨⟨t1 ++ t2, by rw [ht2, ht1, List.append_assoc], ?_⟩, fun hp0 => hpw2 (hpw1 hp0), ?_⟩
      · intro a hat
        rcases List.mem_append.mp hat with h1 | h1
        · obtain ⟨ha, r', hr', hg⟩ := hta1 a h1
          exact ⟨ha, p, List.mem_cons_self p ps, r', hr', hg⟩
        · obtain ⟨ha, p', hp', r', hr', hg⟩ := hta2 a h1
          exact ⟨ha, p', List.mem_cons_of_mem p hp', r', hr', hg⟩
      · intro p' hp' r' hr' a hga hadd
        rcases List.mem_cons.mp hp' with h1 | h1
        · subst h1
          obtain ⟨b, hb, hbeq⟩ := hrep1 r' hr' a hga hadd
          exact ⟨b, hacc2_sub b hb, hbeq⟩
        · exact hrep2 p' h1 r' hr' a hga hadd

/-- C1: within one run, the collected asset list contains no two entries
with the same repository path; every collected entry is a bundled
(`include = true`) classification; and whenever a reference on any page
classifies as a bundled asset, its repository path is represented exactly
once in the collected list and its rewritten reference value
(`getProcessedFileRef`) equals that repository path — so two references
resolving to the one repository path are both rewritten to it while only
the first-seen occurrence is collected. -/
theorem claim_C1 (fo : JUrl → FetchOutcome) (pages : List PageIn) (s : Str)
    (l : List Asset) (h : getJcrAssets fo pages s = .ok l) :
    l.Pairwise (fun a b => a.jcrPath ≠ b.jcrPath) ∧
    (∀ a ∈ l, a.add = true) ∧
    (∀ p ∈ pages, ∀ r ∈ p.refs, ∀ a : Asset,
      getAsset r p.url s = .ok (some a) → a.add = true →
      ∃ jp, a.jcrPath = some jp ∧
        getProcessedFileRef r p.url s = .ok jp ∧
        ∃ b ∈ l, b.jcrPath = some jp) := by
  rw [getJcrAssets] at h
  cases hgp : getJcrPages fo s pages with
  | error e => rw [hgp] at h; exact Except.noConfusion h
  | ok jl =>
    rw [hgp] at h
    obtain ⟨⟨t, ht, hta⟩, hpw, hrep⟩ := collectPagesAssets_spec s pages [] l h
    rw [List.nil_append] at ht
    subst ht
    refine ⟨hpw (List.Pairwise.nil), fun a ha => (hta a ha).1, ?_⟩
    intro p hp r hr a hga hadd
    obtain ⟨jp, hjp, hpf, hne⟩ := getAsset_some_add hga hadd
    refine ⟨jp, hjp, ?_, ?_⟩
    · rw [getProcessedFileRef_of_getAsset hga, hpf]
    · obtain ⟨b, hb, hbeq⟩ := hrep p hp r hr a hga hadd
      exact ⟨b, hb, by rw [hbeq, hjp]⟩

/-- Witness: a concrete run of the collector on one page with one
relative reference satisfies the C1 deduplication invariant. -/
theorem claim_C1_witness :
    getJcrAssets (fun _ => FetchOutcome.httpError 404)
        [⟨"/1/2/page".data, "https://h/1/2/page.html".data, ["./x.png".data]⟩]
        ("s".data) =
      .ok [⟨"./x.png".data, "/content/dam/s/1/2/x.png".data,
            some ("/content/dam/s/1/2/x.png".data),
            some ⟨"https".data, "h".data, "/1/2/x.png".data, []⟩, true, none, none⟩] ∧
    ([⟨"./x.png".data, "/content/dam/s/1/2/x.png".data,
       some ("/content/dam/s/1/2/x.png".data),
       some ⟨"https".data, "h".data, "/1/2/x.png".data, []⟩, true, none, none⟩] :
      List Asset).Pairwise (fun a b => a.jcrPath ≠ b.jcrPath) := by
  refine ⟨by decide, ?_⟩
  exact (claim_C1 (fun _ => FetchOutcome.httpError 404)
    [⟨"/1/2/page".data, "https://h/1/2/page.html".data, ["./x.png".data]⟩]
    ("s".data) _ (by decide)).1

/-- The page records built by `getJcrPages` carry exactly the page path
mapper's image of the input pages, in order. -/
theorem getJcrPages_map (fo : JUrl → FetchOutcome) (s : Str) :
    ∀ (pages : List PageIn) (jl : List JcrPage),
      getJcrPages fo s pages = .ok jl →
      jl.map (fun p => p.jcrPath) = pages.map (fun p => getJcrPagePath p.path s) := by
  intro pages
  induction pages with
  | nil =>
    intro jl h
    have : ([] : List JcrPage) = jl := Except.ok.inj h
    subst this
    rfl
  | cons p ps ih =>
    intro jl h
    rw [getJcrPages] at h
    cases h1 : getProcessedJcrRefs fo p.url s p.refs with
    | error e => rw [h1] at h; exact Except.noConfusion h
    | ok prefs =>
      rw [h1] at h
      cases h2 : getJcrPages fo s ps with
      | error e => rw [h2] at h; exact Except.noConfusion h
      | ok rest =>
        rw [h2] at h
        have := Except.ok.inj h
        subst this
        simp only [List.map_cons]
        rw [ih rest h2]

/-- With every page path non-empty, the page side of `getResourcePaths` is
a plain projection. -/
theorem getResourcePathsPages_eq (jl : List JcrPage)
    (h : ∀ p ∈ jl, p.jcrPath ≠ []) :
    getResourcePathsPages jl = jl.map (fun p => p.jcrPath) := by
  induction jl with
  | nil => rfl
  | cons p t ih =>
    have hp := h p (List.mem_cons_self p t)
    simp only [getResourcePathsPages, List.filterMap_cons, if_neg hp, List.map_cons]
    rw [← getResourcePathsPages, ih (fun q hq => h q (List.mem_cons_of_mem p hq))]

/-- With every asset bundled and carrying a non-empty path, the asset side
of `getResourcePaths` is the `jcrPath` projection. -/
theorem getResourcePathsAssets_eq (al : List Asset)
    (h : ∀ a ∈ al, a.add = true ∧ ∃ jp, a.jcrPath = some jp ∧ jp ≠ []) :
    getResourcePathsAssets al = al.filterMap (fun a => a.jcrPath) := by
  induction al with
  | nil => rfl
  | cons a t ih =>
    obtain ⟨hadd, jp, hjp, hne⟩ := h a (List.mem_cons_self a t)
    have hcondt : (a.add && !(jp = [] : Bool)) = true := by
      rw [hadd]
      simp [hne]
    simp only [getResourcePathsAssets, List.filterMap_cons, hjp, hcondt, if_pos]
    rw [← getResourcePathsAssets, ih (fun b hb => h b (List.mem_cons_of_mem a hb))]

/-- Path-distinctness of assets transfers to their projected path list. -/
theorem pairwise_filterMap_jcrPath (al : List Asset)
    (h : ∀ a ∈ al, ∃ jp, a.jcrPath = some jp)
    (hp : al.Pairwise (fun a b => a.jcrPath ≠ b.jcrPath)) :
    (al.filterMap (fun a => a.jcrPath)).Pairwise (fun x y : Str => x ≠ y) := by
  induction al with
  | nil => exact List.Pairwise.nil
  | cons a t ih =>
    obtain ⟨jp, hjp⟩ := h a (List.mem_cons_self a t)
    rcases List.pairwise_cons.mp hp with ⟨hhead, htail⟩
    simp only [List.filterMap_cons, hjp]
    rw [List.pairwise_cons]
    constructor
    · intro q hq
      rcases List.mem_filterMap.mp hq with ⟨b, hb, hbq⟩
      intro heq
      exact hhead b hb (by rw [hjp, hbq, heq])
    · exact ih (fun b hb => h b (List.mem_cons_of_mem a hb)) htail

/-- C3 (amended): the filter-manifest list is exactly the page repository
paths (in page order) followed by the asset repository paths (in
first-seen order), and the asset group is duplicate-free; the combined
list can nevertheless repeat a path when two input pages map to one
repository path (see the counterexample) or a page path collides with an
asset path. -/
theorem claim_C3_amended (fo : JUrl → FetchOutcome) (pages : List PageIn) (s : Str)
    (l : List Str) (h : getJcrPaths fo pages s = .ok l) :
    ∃ al, getJcrAssets fo pages s = .ok al ∧
      l = pages.map (fun p => getJcrPagePath p.path s) ++
            al.filterMap (fun a => a.jcrPath) ∧
      (al.filterMap (fun a => a.jcrPath)).Pairwise (fun x y : Str => x ≠ y) := by
  rw [getJcrPaths] at h
  cases hjp : getJcrPages fo s pages with
  | error e => rw [hjp] at h; exact Except.noConfusion h
  | ok jl =>
    rw [hjp] at h
    cases hja : getJcrAssets fo pages s with
    | error e => rw [hja] at h; exact Except.noConfusion h
    | ok al =>
      rw [hja] at h
      have hl : l = getResourcePathsPages jl ++ getResourcePathsAssets al :=
        (Except.ok.inj h).symm
      have hja2 := hja
      rw [getJcrAssets, hjp] at hja2
      obtain ⟨⟨t, ht, hta⟩, hpw, -⟩ := collectPagesAssets_spec s pages [] al hja2
      rw [List.nil_append] at ht
      subst ht
      have hfacts : ∀ a ∈ al, a.add = true ∧ ∃ jp, a.jcrPath = some jp ∧ jp ≠ [] := by
        intro a ha
        obtain ⟨hadd, p, hp, r, hr, hg⟩ := hta a ha
        obtain ⟨jp, hjp', hpf, hne⟩ := getAsset_some_add hg hadd
        exact ⟨hadd, jp, hjp', hne⟩
      have hmap := getJcrPages_map fo s pages jl hjp
      have hpnn : ∀ p ∈ jl, p.jcrPath ≠ [] := by
        intro p hp
        have : p.jcrPath ∈ jl.map (fun q => q.jcrPath) := List.mem_map_of_mem _ hp
        rw [hmap] at this
        rcases List.mem_map.mp this with ⟨q, hq, hqe⟩
        rw [← hqe]
        exact getJcrPagePath_ne_nil q.path s
      refine ⟨al, rfl, ?_, ?_⟩
      · rw [hl, getResourcePathsPages_eq jl hpnn, hmap,
          getResourcePathsAssets_eq al hfacts]
      · exact pairwise_filterMap_jcrPath al
          (fun a ha => ⟨(hfacts a ha).2.choose, (hfacts a ha).2.choose_spec.1⟩)
          (hpw List.Pairwise.nil)

/-- Witness: a concrete run of `getJcrPaths` on one page with one asset
reference yields the page path followed by the asset path, with the asset
group duplicate-free. -/
theorem claim_C3_witness :
    getJcrPaths (fun _ => FetchOutcome.httpError 404)
        [⟨"/1/2/page".data, "https://h/1/2/page.html".data, ["./x.png".data]⟩]
        ("s".data) =
      .ok ["/content/s/1/2/page".data, "/content/dam/s/1/2/x.png".data] ∧
    ∃ al, getJcrAssets (fun _ => FetchOutcome.httpError 404)
        [⟨"/1/2/page".data, "https://h/1/2/page.html".data, ["./x.png".data]⟩]
        ("s".data) = .ok al ∧
      ["/content/s/1/2/page".data, "/content/dam/s/1/2/x.png".data] =
        ([⟨"/1/2/page".data, "https://h/1/2/page.html".data, ["./x.png".data]⟩] :
            List PageIn).map (fun p => getJcrPagePath p.path ("s".data)) ++
          al.filterMap (fun a => a.jcrPath) ∧
      (al.filterMap (fun a => a.jcrPath)).Pairwise (fun x y : Str => x ≠ y) := by
  refine ⟨by decide, ?_⟩
  exact claim_C3_amended (fun _ => FetchOutcome.httpError 404)
    [⟨"/1/2/page".data, "https://h/1/2/page.html".data, ["./x.png".data]⟩]
    ("s".data) _ (by decide)

end Jcr
